import Mathlib

/-!
Verification of the course-outline traversal and completion-marking logic of
`openedx/features/course_experience/utils.py` (`get_course_outline_block_tree`
and its helpers `populate_children`, `set_last_accessed_default`,
`mark_blocks_completed`, `recurse_mark_complete`, `mark_last_accessed`, and
the module-level `get_resume_block`).

The Python dict-based block objects are embedded as a nested inductive
`Block`.  Block keys are embedded as `Nat` (opaque identifiers compared only
for equality), block type tags as `String` (the source compares
`child.get('type') != 'discussion'` on strings).  The decoration fields
`complete` and `resume_block` are Booleans whose construction default `false`
models the Python dict not having (or having just-initialised) the key; the
`authorization_denial_reason` field is a Boolean recording whether the
access-denial marker is present (the source only tests its truthiness).

The external collaborators are embedded as plain data parameters:
the completion set (`BlockCompletion.get_course_completions`) as a
`List Nat` of completed block keys (the source tests
`course_block_completions.get(block_key)` for truthiness, i.e. membership),
the latest-completed marker (`BlockCompletion.get_latest_block_completed`)
as an `Option Nat` holding `full_block_key`, and the per-block stored
position (`get_student_module_as_dict(...)['position']`) as a function
`Nat → Option Nat` from block key to the stored 1-based position, where
`none` models both an absent record and an absent `position` field.
-/

namespace CourseOutline

/-- A course-outline block after `populate_children`: the Python dict with
key, `type`, `complete`, `resume_block`, `authorization_denial_reason` and
the list of child blocks. -/
inductive Block : Type where
| mk (key : Nat) (btype : String) (complete : Bool) (resume_block : Bool)
    (authorization_denial_reason : Bool) (children : List Block)

/-- The block's key (`block.serializer.instance` in the source). -/
def Block.key : Block → Nat
| .mk k _ _ _ _ _ => k

/-- The block's `type` field. -/
def Block.btype : Block → String
| .mk _ ty _ _ _ _ => ty

/-- The block's `complete` field (`false` models the key being absent). -/
def Block.complete : Block → Bool
| .mk _ _ co _ _ _ => co

/-- The block's `resume_block` field (`false` models the key being absent). -/
def Block.resume_block : Block → Bool
| .mk _ _ _ re _ _ => re

/-- Whether the block carries an `authorization_denial_reason` marker. -/
def Block.authorization_denial_reason : Block → Bool
| .mk _ _ _ _ de _ => de

/-- The block's `children` list (`[]` models the key being absent or empty;
the source only ever tests its truthiness). -/
def Block.children : Block → List Block
| .mk _ _ _ _ _ cs => cs

mutual

/-- All blocks of a tree, in preorder: the block itself and, recursively,
every block of every child subtree. -/
def subBlocks : Block → List Block
| .mk k ty co re de cs => .mk k ty co re de cs :: subBlocksList cs

/-- All blocks of a forest, in preorder. -/
def subBlocksList : List Block → List Block
| [] => []
| c :: cs => subBlocks c ++ subBlocksList cs

end

/-- Number of blocks in a tree. -/
def countBlocks (b : Block) : Nat :=
(subBlocks b).length

/-- The keys of all blocks of a tree, in preorder. -/
def treeKeys (b : Block) : List Nat :=
(subBlocks b).map Block.key

mutual

/-- `set_last_accessed_default` (utils.py lines 52-59): set `resume_block`
and `complete` to `False` on the block and recursively on all children. -/
def set_last_accessed_default : Block → Block
| .mk k ty _ _ de cs => .mk k ty false false de (set_last_accessed_default_list cs)

/-- `set_last_accessed_default` mapped over a list of children (the source's
`for child in block.get('children', [])` loop). -/
def set_last_accessed_default_list : List Block → List Block
| [] => []
| c :: cs => set_last_accessed_default c :: set_last_accessed_default_list cs

end

mutual

/-- `recurse_mark_complete` (utils.py lines 77-112): post-order walk that
sets `complete` when the block's key is in the completion set, additionally
sets `resume_block` when (inside that branch) the key equals the
latest-completed key, then—only when the `children` list is non-empty
(Python truthiness of `block.get('children')`)—recurses into every child,
ORs the children's `resume_block` into the block, and sets `complete` when
`all()` of the non-`'discussion'`-type children are `complete`. -/
def recurse_mark_complete (comps : List Nat) (latest : Nat) : Block → Block
| .mk k ty co re de cs =>
  let co1 := co || comps.contains k
  let re1 := re || (comps.contains k && (k == latest))
  match cs with
  | [] => .mk k ty co1 re1 de []
  | c :: rest =>
    let cs2 := recurse_mark_complete_list comps latest (c :: rest)
    let re2 := re1 || cs2.any (fun x => x.resume_block)
    let co2 := co1 ||
      ((cs2.filter (fun x => x.btype != "discussion")).all (fun x => x.complete))
    .mk k ty co2 re2 de cs2

/-- The source's `for idx in range(len(block['children']))` recursion loop,
as a map over the child list. -/
def recurse_mark_complete_list (comps : List Nat) (latest : Nat) : List Block → List Block
| [] => []
| c :: cs => recurse_mark_complete comps latest c :: recurse_mark_complete_list comps latest cs

end

/-- `mark_blocks_completed` (utils.py lines 61-75): run
`recurse_mark_complete` only when the latest-completed marker is present
(`if last_completed_child_position:`); otherwise leave the tree untouched. -/
def mark_blocks_completed (latest : Option Nat) (comps : List Nat) (b : Block) : Block :=
match latest with
| none => b
| some l => recurse_mark_complete comps l b

/-- The in-place mutation `child['resume_block'] = True` of the source:
set the block's own `resume_block` field, leaving everything else alone. -/
def setResumeTrue : Block → Block
| .mk k ty co _ de cs => .mk k ty co true de cs

theorem sizeOf_setResumeTrue (b : Block) : sizeOf (setResumeTrue b) = sizeOf b := by
cases b with
| mk k ty co re de cs => cases re <;> rfl

/-- `mark_last_accessed` (utils.py lines 114-132): look up the learner's
stored 1-based position for the block; when a position is present (Python
truthiness: `none` or `0` both fail the test) and the block has children,
mark the block `resume_block`; when the position is within range, mark the
child at index `position - 1` and recurse into it; otherwise mark the last
child without recursing. -/
def mark_last_accessed (pos : Nat → Option Nat) : Block → Block
| .mk k ty co re de cs =>
  match pos k with
  | none => .mk k ty co re de cs
  | some p =>
    match cs with
    | [] => .mk k ty co re de []
    | c0 :: crest =>
      if hp0 : p = 0 then .mk k ty co re de (c0 :: crest)
      else if hp : p ≤ (c0 :: crest).length then
        .mk k ty co true de
          ((c0 :: crest).set (p - 1)
            (mark_last_accessed pos (setResumeTrue ((c0 :: crest).get ⟨p - 1, by omega⟩))))
      else
        .mk k ty co true de
          ((c0 :: crest).set ((c0 :: crest).length - 1)
            (setResumeTrue ((c0 :: crest).getLast (by simp))))
termination_by b => sizeOf b
decreasing_by
  simp only [sizeOf_setResumeTrue]
  refine Nat.lt_trans (List.sizeOf_lt_of_mem (List.get_mem _ _ _)) ?_
  simp only [Block.mk.sizeOf_spec]
  omega

mutual

/-- `get_resume_block` (utils.py lines 183-197): return `none` when the
block carries an access-denial marker or is not marked `resume_block`;
return the block itself when it has no children; otherwise return the
first child subtree's non-`none` result, falling back to the block itself. -/
def get_resume_block : Block → Option Block
| .mk k ty co re de cs =>
  if de then none
  else if !re then none
  else match cs with
  | [] => some (.mk k ty co re de cs)
  | _ :: _ =>
    match first_resume cs with
    | some r => some r
    | none => some (.mk k ty co re de cs)

/-- The source's `for child in block['children']` loop inside
`get_resume_block`: the first non-`none` recursive result, if any. -/
def first_resume : List Block → Option Block
| [] => none
| c :: cs =>
  match get_resume_block c with
  | some r => some r
  | none => first_resume cs

end

/-- A record of the flat `all_blocks['blocks']` map, before population:
its `type`, its access-denial marker, and its child ids. -/
structure BlockRecord where
  btype : String
  authorization_denial_reason : Bool
  children : List Nat
deriving DecidableEq

/-- Lookup in the flat block map (`all_blocks[child_id]`), embedded as an
association list with first-match semantics. -/
def lookupRecord : List (Nat × BlockRecord) → Nat → Option BlockRecord
| [], _ => none
| (k', r) :: rest, k => if k' = k then some r else lookupRecord rest k

/-- `populate_children` (utils.py lines 34-50) over a list of sibling ids:
look up each id in the flat map and recursively populate its children,
preserving the sibling order.  The `fuel` argument only bounds the
recursion depth so that the embedding is total: the Python function simply
recurses (and on a cyclic map would not terminate), so `none` models
either a propagated `KeyError` (missing id) or a non-terminating /
too-deep recursion.  Fuel is consumed along both children and siblings, so
any fuel at least the number of map entries plus the length of the id list
suffices for an acyclic map. -/
def populateMany (m : List (Nat × BlockRecord)) : Nat → List Nat → Option (List Block)
| 0, _ => none
| _ + 1, [] => some []
| fuel + 1, k :: ks =>
  match lookupRecord m k with
  | none => none
  | some r =>
    match populateMany m fuel r.children with
    | none => none
    | some cs =>
      match populateMany m fuel ks with
      | none => none
      | some rest =>
        some (.mk k r.btype false false r.authorization_denial_reason cs :: rest)

/-- `populate_children` on a single root id: the tree rooted at `root`
with every child id replaced by its populated block. -/
def populate_children (m : List (Nat × BlockRecord)) (fuel root : Nat) : Option Block :=
match populateMany m fuel [root] with
| some [b] => some b
| _ => none

/-- The per-user completion data handed over by the completion
collaborator: the latest-completed marker and the completion set. -/
structure UserCtx where
  latest : Option Nat
  completions : List Nat

/-- `get_course_outline_block_tree` (utils.py lines 26-180) after the
block-query collaborator has answered: fetch the root record from the flat
map (`all_blocks['blocks'].get(all_blocks['root'], None)`); when absent
return `none` without building anything; otherwise populate the tree and,
only when a user is supplied, run `set_last_accessed_default` followed by
`mark_blocks_completed`.  A `none` from the populate step models the
propagated `KeyError` of a missing child id. -/
def get_course_outline_block_tree (m : List (Nat × BlockRecord)) (root : Nat)
    (user : Option UserCtx) (fuel : Nat) : Option Block :=
match lookupRecord m root with
| none => none
| some _ =>
  match populate_children m fuel root with
  | none => none
  | some t =>
    match user with
    | none => some t
    | some u => some (mark_blocks_completed u.latest u.completions (set_last_accessed_default t))

/-- The ids reached by the recursion of `populate_children` from `a`:
`a` itself, and recursively every child id of a reached id that is present
in the flat map. -/
inductive Reaches (m : List (Nat × BlockRecord)) : Nat → Nat → Prop
| refl (k : Nat) : Reaches m k k
| step {a b c : Nat} {r : BlockRecord} : Reaches m a b → lookupRecord m b = some r →
    c ∈ r.children → Reaches m a c

/-- Every child id referenced by any record of the flat map is itself a key
of the map (the spec's "all referenced ids present" precondition). -/
def allRefsPresent (m : List (Nat × BlockRecord)) : Bool :=
m.all (fun p => p.2.children.all (fun c => (lookupRecord m c).isSome))

mutual

/-- Structural Boolean equality on blocks. -/
def beqBlock : Block → Block → Bool
| .mk k1 t1 c1 r1 d1 cs1, .mk k2 t2 c2 r2 d2 cs2 =>
  (k1 == k2) && (t1 == t2) && (c1 == c2) && (r1 == r2) && (d1 == d2) && beqBlockList cs1 cs2

/-- Structural Boolean equality on block lists. -/
def beqBlockList : List Block → List Block → Bool
| [], [] => true
| x :: xs, y :: ys => beqBlock x y && beqBlockList xs ys
| _, _ => false

end

/-- Strong induction over a block tree: to prove `P` for every block it
suffices to prove it for a node assuming it for all children. -/
theorem Block.strongInd {P : Block → Prop}
    (ih : ∀ k ty co re de cs, (∀ c ∈ cs, P c) → P (Block.mk k ty co re de cs)) :
    ∀ b, P b
| .mk k ty co re de cs => ih k ty co re de cs (fun c hc => Block.strongInd ih c)
termination_by b => sizeOf b
decreasing_by
  exact Nat.lt_trans (List.sizeOf_lt_of_mem hc) (by simp only [Block.mk.sizeOf_spec]; omega)

theorem beqBlock_iff : ∀ a b, beqBlock a b = true ↔ a = b := by
  have key : ∀ (l : List Block), (∀ c ∈ l, ∀ b, beqBlock c b = true ↔ c = b) →
      ∀ l2, beqBlockList l l2 = true ↔ l = l2 := by
    intro l
    induction l with
    | nil => intro _ l2; cases l2 <;> simp [beqBlockList]
    | cons x xs ihl =>
      intro hmem l2
      cases l2 with
      | nil => simp [beqBlockList]
      | cons y ys =>
        have hx := hmem x (by simp)
        have hxs := ihl (fun c hc => hmem c (by simp [hc])) ys
        simp [beqBlockList, Bool.and_eq_true, hx, hxs]
  intro a
  induction a using Block.strongInd with
  | ih k ty co re de cs ih =>
    intro b
    cases b with
    | mk k2 ty2 co2 re2 de2 cs2 =>
      simp [beqBlock, Bool.and_eq_true, key cs ih cs2, Block.mk.injEq, and_assoc]

instance : DecidableEq Block := fun a b => decidable_of_iff _ (beqBlock_iff a b)

@[simp] theorem key_mk (k ty co re de cs) : (Block.mk k ty co re de cs).key = k := rfl

@[simp] theorem btype_mk (k ty co re de cs) : (Block.mk k ty co re de cs).btype = ty := rfl

@[simp] theorem complete_mk (k ty co re de cs) : (Block.mk k ty co re de cs).complete = co := rfl

@[simp] theorem resume_mk (k ty co re de cs) : (Block.mk k ty co re de cs).resume_block = re := rfl

@[simp] theorem denial_mk (k ty co re de cs) :
    (Block.mk k ty co re de cs).authorization_denial_reason = de := rfl

@[simp] theorem children_mk (k ty co re de cs) : (Block.mk k ty co re de cs).children = cs := rfl

@[simp] theorem subBlocksList_eq_bind (cs : List Block) :
    subBlocksList cs = cs.flatMap subBlocks := by
  induction cs with
  | nil => rfl
  | cons c rest ih => simp [subBlocksList, ih, List.flatMap]

theorem subBlocks_eq (b : Block) : subBlocks b = b :: subBlocksList b.children := by
  cases b; rfl

@[simp] theorem self_mem_subBlocks (b : Block) : b ∈ subBlocks b := by
  rw [subBlocks_eq]; exact List.mem_cons_self _ _

theorem mem_subBlocks_iff {x b : Block} :
    x ∈ subBlocks b ↔ x = b ∨ ∃ c ∈ b.children, x ∈ subBlocks c := by
  rw [subBlocks_eq]
  simp [List.mem_flatMap]

@[simp] theorem set_last_accessed_default_list_eq_map (cs : List Block) :
    set_last_accessed_default_list cs = cs.map set_last_accessed_default := by
  induction cs with
  | nil => rfl
  | cons c rest ih => simp [set_last_accessed_default_list, ih]

@[simp] theorem recurse_mark_complete_list_eq_map (comps latest) (cs : List Block) :
    recurse_mark_complete_list comps latest cs = cs.map (recurse_mark_complete comps latest) := by
  induction cs with
  | nil => rfl
  | cons c rest ih => simp [recurse_mark_complete_list, ih]

theorem set_last_accessed_default_eq (k ty co re de cs) :
    set_last_accessed_default (Block.mk k ty co re de cs) =
      Block.mk k ty false false de (cs.map set_last_accessed_default) := by
  simp [set_last_accessed_default]

theorem recurse_mark_complete_nil (comps latest k ty co re de) :
    recurse_mark_complete comps latest (Block.mk k ty co re de []) =
      Block.mk k ty (co || comps.contains k) (re || (comps.contains k && (k == latest))) de [] :=
  rfl

theorem recurse_mark_complete_cons (comps latest k ty co re de) (c : Block)
    (rest : List Block) :
    recurse_mark_complete comps latest (Block.mk k ty co re de (c :: rest)) =
      Block.mk k ty
        ((co || comps.contains k) ||
          ((((c :: rest).map (recurse_mark_complete comps latest)).filter
              (fun x => x.btype != "discussion")).all (fun x => x.complete)))
        ((re || (comps.contains k && (k == latest))) ||
          (((c :: rest).map (recurse_mark_complete comps latest)).any
            (fun x => x.resume_block)))
        de ((c :: rest).map (recurse_mark_complete comps latest)) := by
  simp [recurse_mark_complete]

theorem clear_flags (b : Block) :
    ∀ x ∈ subBlocks (set_last_accessed_default b),
      x.complete = false ∧ x.resume_block = false := by
  induction b using Block.strongInd with
  | ih k ty co re de cs ih =>
    intro x hx
    rw [set_last_accessed_default_eq] at hx
    rcases mem_subBlocks_iff.mp hx with h | ⟨c, hc, hxc⟩
    · subst h; exact ⟨rfl, rfl⟩
    · simp only [children_mk, List.mem_map] at hc
      obtain ⟨c1, hc1, rfl⟩ := hc
      exact ih c1 hc1 x hxc

theorem rmc_clear_complete_iff (comps : List Nat) (latest : Nat) (b : Block) :
    ∀ x ∈ subBlocks (recurse_mark_complete comps latest (set_last_accessed_default b)),
      (x.complete = true ↔
        x.key ∈ comps ∨
          (x.children ≠ [] ∧ ∀ c ∈ x.children, c.btype ≠ "discussion" → c.complete = true)) := by
  induction b using Block.strongInd with
  | ih k ty co re de cs ih =>
    intro x hx
    rw [set_last_accessed_default_eq] at hx
    cases cs with
    | nil =>
      simp only [List.map_nil] at hx
      rw [recurse_mark_complete_nil, subBlocks_eq] at hx
      simp only [children_mk, subBlocksList] at hx
      have hx' : x = Block.mk k ty (false || comps.contains k)
          (false || (comps.contains k && (k == latest))) de [] := by simpa using hx
      subst hx'
      simp [List.elem_iff]
    | cons c0 crest =>
      simp only [List.map_cons] at hx
      rw [recurse_mark_complete_cons] at hx
      rcases mem_subBlocks_iff.mp hx with h | ⟨c, hc, hxc⟩
      · subst h
        simp only [complete_mk, children_mk, key_mk, Bool.or_eq_true, List.elem_iff,
          List.all_eq_true, List.mem_filter, bne_iff_ne, Bool.false_or, ne_eq,
          List.map_cons, reduceCtorEq, not_false_eq_true, List.cons_ne_nil, true_and]
        tauto
      · simp only [children_mk, ← List.map_cons, List.map_map, List.mem_map] at hc
        obtain ⟨c1, hc1, rfl⟩ := hc
        exact ih c1 hc1 x hxc

theorem rmc_clear_resume_iff (comps : List Nat) (latest : Nat) (b : Block) :
    ∀ x ∈ subBlocks (recurse_mark_complete comps latest (set_last_accessed_default b)),
      (x.resume_block = true ↔
        (x.key = latest ∧ x.key ∈ comps) ∨
          ∃ d ∈ subBlocksList x.children, d.resume_block = true) := by
  induction b using Block.strongInd with
  | ih k ty co re de cs ih =>
    intro x hx
    rw [set_last_accessed_default_eq] at hx
    cases cs with
    | nil =>
      simp only [List.map_nil] at hx
      rw [recurse_mark_complete_nil, subBlocks_eq] at hx
      simp only [children_mk, subBlocksList] at hx
      have hx' : x = Block.mk k ty (false || comps.contains k)
          (false || (comps.contains k && (k == latest))) de [] := by simpa using hx
      subst hx'
      simp only [resume_mk, children_mk, subBlocksList, key_mk, Bool.false_or,
        Bool.and_eq_true, List.elem_iff, beq_iff_eq, List.not_mem_nil, false_and,
        exists_false, or_false, exists_and_left]
      tauto
    | cons c0 crest =>
      simp only [List.map_cons] at hx
      rw [recurse_mark_complete_cons] at hx
      rcases mem_subBlocks_iff.mp hx with h | ⟨c, hc, hxc⟩
      · subst h
        have hchild : ∀ c ∈ (set_last_accessed_default c0 :: List.map set_last_accessed_default crest).map
            (recurse_mark_complete comps latest),
            ∀ x ∈ subBlocks c,
              (x.resume_block = true ↔
                (x.key = latest ∧ x.key ∈ comps) ∨
                  ∃ d ∈ subBlocksList x.children, d.resume_block = true) := by
          intro c hc
          simp only [← List.map_cons, List.map_map, List.mem_map] at hc
          obtain ⟨c1, hc1, rfl⟩ := hc
          exact ih c1 hc1
        have hany : ((set_last_accessed_default c0 :: List.map set_last_accessed_default crest).map
              (recurse_mark_complete comps latest)).any (fun x => x.resume_block) = true ↔
            ∃ d ∈ subBlocksList ((set_last_accessed_default c0 ::
              List.map set_last_accessed_default crest).map (recurse_mark_complete comps latest)),
              d.resume_block = true := by
          constructor
          · intro h
            obtain ⟨c, hcm, hres⟩ := List.any_eq_true.mp h
            refine ⟨c, ?_, hres⟩
            rw [subBlocksList_eq_bind, List.mem_flatMap]
            exact ⟨c, hcm, self_mem_subBlocks c⟩
          · rintro ⟨d, hd, hres⟩
            rw [subBlocksList_eq_bind, List.mem_flatMap] at hd
            obtain ⟨c, hcm, hdc⟩ := hd
            have hcr : c.resume_block = true := by
              have hiff := hchild c hcm c (self_mem_subBlocks c)
              rcases mem_subBlocks_iff.mp hdc with h' | ⟨cc, hcc, hdcc⟩
              · exact h' ▸ hres
              · refine hiff.mpr (Or.inr ⟨d, ?_, hres⟩)
                rw [subBlocksList_eq_bind, List.mem_flatMap]
                exact ⟨cc, hcc, hdcc⟩
            exact List.any_eq_true.mpr ⟨c, hcm, hcr⟩
        simp only [resume_mk, children_mk, key_mk, Bool.or_eq_true, Bool.false_or,
          Bool.and_eq_true, List.elem_iff, beq_iff_eq, hany]
        tauto
      · simp only [children_mk, ← List.map_cons, List.map_map, List.mem_map] at hc
        obtain ⟨c1, hc1, rfl⟩ := hc
        exact ih c1 hc1 x hxc

theorem mem_map_key_subBlocksList (a : Nat) (cs : List Block) :
    a ∈ (subBlocksList cs).map Block.key ↔ ∃ c ∈ cs, a ∈ treeKeys c := by
  rw [subBlocksList_eq_bind]
  simp only [treeKeys, List.mem_map, List.mem_flatMap]
  tauto

theorem rmc_clear_resume_path (comps : List Nat) (latest : Nat) (hmem : latest ∈ comps)
    (b : Block) :
    ∀ x ∈ subBlocks (recurse_mark_complete comps latest (set_last_accessed_default b)),
      (x.resume_block = true ↔ latest ∈ treeKeys x) := by
  induction b using Block.strongInd with
  | ih k ty co re de cs ih =>
    intro x hx
    rw [set_last_accessed_default_eq] at hx
    cases cs with
    | nil =>
      simp only [List.map_nil] at hx
      rw [recurse_mark_complete_nil, subBlocks_eq] at hx
      simp only [children_mk, subBlocksList] at hx
      have hx' : x = Block.mk k ty (false || comps.contains k)
          (false || (comps.contains k && (k == latest))) de [] := by simpa using hx
      subst hx'
      simp only [resume_mk, treeKeys, subBlocks_eq, children_mk, subBlocksList,
        List.map_cons, List.map_nil, List.mem_singleton, Bool.false_or,
        Bool.and_eq_true, List.elem_iff, beq_iff_eq, key_mk]
      constructor
      · rintro ⟨_, rfl⟩; rfl
      · rintro rfl; exact ⟨hmem, rfl⟩
    | cons c0 crest =>
      simp only [List.map_cons] at hx
      rw [recurse_mark_complete_cons] at hx
      rcases mem_subBlocks_iff.mp hx with h | ⟨c, hc, hxc⟩
      · subst h
        have hchild : ∀ c ∈ (set_last_accessed_default c0 :: List.map set_last_accessed_default crest).map
            (recurse_mark_complete comps latest),
            (c.resume_block = true ↔ latest ∈ treeKeys c) := by
          intro c hc
          simp only [← List.map_cons, List.map_map, List.mem_map] at hc
          obtain ⟨c1, hc1, rfl⟩ := hc
          exact ih c1 hc1 _ (self_mem_subBlocks _)
        have hkeys : latest ∈ treeKeys (Block.mk k ty
            ((false || comps.contains k) ||
              ((((set_last_accessed_default c0 :: List.map set_last_accessed_default crest).map
                  (recurse_mark_complete comps latest)).filter
                  (fun x => x.btype != "discussion")).all (fun x => x.complete)))
            ((false || (comps.contains k && (k == latest))) ||
              (((set_last_accessed_default c0 :: List.map set_last_accessed_default crest).map
                  (recurse_mark_complete comps latest)).any (fun x => x.resume_block)))
            de ((set_last_accessed_default c0 :: List.map set_last_accessed_default crest).map
              (recurse_mark_complete comps latest))) ↔
            latest = k ∨ ∃ c ∈ (set_last_accessed_default c0 ::
              List.map set_last_accessed_default crest).map (recurse_mark_complete comps latest),
              latest ∈ treeKeys c := by
          rw [treeKeys, subBlocks_eq]
          simp only [children_mk, List.map_cons, List.mem_cons, key_mk,
            mem_map_key_subBlocksList]
        rw [hkeys]
        simp only [resume_mk, Bool.or_eq_true, Bool.false_or, Bool.and_eq_true,
          List.elem_iff, beq_iff_eq, List.any_eq_true]
        constructor
        · rintro (⟨_, rfl⟩ | ⟨c, hcm, hres⟩)
          · exact Or.inl rfl
          · exact Or.inr ⟨c, hcm, (hchild c hcm).mp hres⟩
        · rintro (rfl | ⟨c, hcm, hk⟩)
          · exact Or.inl ⟨hmem, rfl⟩
          · exact Or.inr ⟨c, hcm, (hchild c hcm).mpr hk⟩
      · simp only [children_mk, ← List.map_cons, List.map_map, List.mem_map] at hc
        obtain ⟨c1, hc1, rfl⟩ := hc
        exact ih c1 hc1 x hxc

/-- A container with one completed non-discussion child and one incomplete
discussion child, used to instantiate C1. -/
def exC1 : Block :=
  Block.mk 10 "vertical" false false false
    [Block.mk 1 "html" false false false [], Block.mk 2 "discussion" false false false []]

/-- C1: in the post-order completion pass (`recurse_mark_complete`, run on a
tree whose decoration fields were initialised by `set_last_accessed_default`
as in `get_course_outline_block_tree`), every block ends `complete = true`
iff its own key is in the supplied completion set, or the block has children
and — after recursing into all of them — every child whose type is not
`"discussion"` is itself complete (a childless block never enters the
recursion branch, since `block.get('children')` is falsy, so it is complete
exactly when its key is in the set); in particular a container with one
completed non-discussion child and one incomplete discussion child is
marked `complete = true`. -/
theorem C1_complete_iff :
    (∀ (comps : List Nat) (latest : Nat) (b : Block),
      ∀ x ∈ subBlocks (recurse_mark_complete comps latest (set_last_accessed_default b)),
        (x.complete = true ↔
          x.key ∈ comps ∨
            (x.children ≠ [] ∧ ∀ c ∈ x.children, c.btype ≠ "discussion" → c.complete = true))) ∧
    (recurse_mark_complete [1] 99 (set_last_accessed_default exC1)).complete = true :=
  ⟨rmc_clear_complete_iff, by decide⟩

/-- Witness for C1: the general iff applied to the concrete container
`exC1` (whose html child's key 1 is the completion set), at the root of the
marked tree. -/
theorem C1_witness :
    (recurse_mark_complete [1] 99 (set_last_accessed_default exC1)).complete = true := by
  have h := C1_complete_iff.1 [1] 99 exC1
    (recurse_mark_complete [1] 99 (set_last_accessed_default exC1)) (self_mem_subBlocks _)
  exact h.mpr (by decide)

/-- A childless block with a key outside the completion set, used to refute
the "zero children" half of C2 and the unconditional iff of C3. -/
def exC2 : Block := Block.mk 0 "html" false false false []

/-- C2 counterexample: a block with zero children whose key is not in the
completion set.  Its child sequence with discussion children excluded is
empty, yet the pass leaves `complete = false`: the `all()` aggregation is
guarded by `if block.get('children'):`, which is falsy for an empty child
list, so the vacuous-truth marking never happens for childless blocks. -/
theorem C2_counterexample :
    ((recurse_mark_complete [] 7 (set_last_accessed_default exC2)).children.filter
      (fun c => c.btype != "discussion") = []) ∧
    (recurse_mark_complete [] 7 (set_last_accessed_default exC2)).complete = false := by
  decide

/-- C2 amended: after the completion pass, every container block with a
non-empty child sequence that becomes empty once discussion-type children
are excluded is marked `complete = true` (the `all()` over the empty
filtered sequence is vacuously true); a container with zero children at
all is skipped by the `if block.get('children'):` guard and stays
incomplete unless its own key is in the completion set. -/
theorem C2_all_discussion_complete :
    ∀ (comps : List Nat) (latest : Nat) (b : Block),
      ∀ x ∈ subBlocks (recurse_mark_complete comps latest (set_last_accessed_default b)),
        x.children ≠ [] →
        x.children.filter (fun c => c.btype != "discussion") = [] →
        x.complete = true := by
  intro comps latest b x hx hne hfilter
  apply (rmc_clear_complete_iff comps latest b x hx).mpr
  refine Or.inr ⟨hne, ?_⟩
  intro c hc hdisc
  exfalso
  have hmemf : c ∈ x.children.filter (fun c => c.btype != "discussion") :=
    List.mem_filter.mpr ⟨hc, by simpa [bne_iff_ne] using hdisc⟩
  rw [hfilter] at hmemf
  exact absurd hmemf (List.not_mem_nil c)

/-- A container whose only child is a discussion block, used to instantiate
the amended C2. -/
def exC2b : Block :=
  Block.mk 5 "vertical" false false false [Block.mk 6 "discussion" false false false []]

/-- Witness for the amended C2: a container whose only child is an
(incomplete) discussion block is marked complete. -/
theorem C2_witness :
    (recurse_mark_complete [] 7 (set_last_accessed_default exC2b)).complete = true :=
  C2_all_discussion_complete [] 7 exC2b
    (recurse_mark_complete [] 7 (set_last_accessed_default exC2b)) (self_mem_subBlocks _)
    (by decide) (by decide)

/-- C3 counterexample: the latest-completed key `0` equals the root's key,
yet with an empty completion set the pass leaves `resume_block = false`:
the `block['resume_block'] = True` assignment is nested inside the
`if course_block_completions.get(block_key):` branch, so a block matching
the latest-completed marker is only marked when its key is also in the
completion set — the claimed iff would force `resume_block = true` here. -/
theorem C3_counterexample :
    (recurse_mark_complete [] 0 (set_last_accessed_default exC2)).key = 0 ∧
    (recurse_mark_complete [] 0 (set_last_accessed_default exC2)).resume_block = false := by
  decide

/-- C3 amended: after the completion pass with a latest-completed marker,
a block ends `resume_block = true` iff (its key equals the latest-completed
key AND that key is in the completion set) or some strict descendant ends
`resume_block = true`; and when the latest-completed key is in the
completion set and exactly one block of the tree carries it, the blocks
with `resume_block = true` are exactly those whose subtree contains that
key, i.e. the ancestor chain from the root to the matching block. -/
theorem C3_resume_iff :
    (∀ (comps : List Nat) (latest : Nat) (b : Block),
      ∀ x ∈ subBlocks (recurse_mark_complete comps latest (set_last_accessed_default b)),
        (x.resume_block = true ↔
          (x.key = latest ∧ x.key ∈ comps) ∨
            ∃ d ∈ subBlocksList x.children, d.resume_block = true)) ∧
    (∀ (comps : List Nat) (latest : Nat) (b : Block), latest ∈ comps →
      (treeKeys (recurse_mark_complete comps latest (set_last_accessed_default b))).count latest = 1 →
      ∀ x ∈ subBlocks (recurse_mark_complete comps latest (set_last_accessed_default b)),
        (x.resume_block = true ↔ latest ∈ treeKeys x)) :=
  ⟨rmc_clear_resume_iff, fun comps latest b hmem _ => rmc_clear_resume_path comps latest hmem b⟩

/-- A two-child course used to instantiate C3: the latest-completed block is
the second child, key 2. -/
def exC3 : Block :=
  Block.mk 0 "course" false false false
    [Block.mk 1 "html" false false false [], Block.mk 2 "html" false false false []]

/-- Witness for the amended C3: with completion set `[2]` and latest marker
`2` (carried by exactly one block), the root lies on the ancestor chain of
the matching block and ends `resume_block = true`. -/
theorem C3_witness :
    (recurse_mark_complete [2] 2 (set_last_accessed_default exC3)).resume_block = true := by
  have h := C3_resume_iff.2 [2] 2 exC3 (by decide) (by decide)
    (recurse_mark_complete [2] 2 (set_last_accessed_default exC3)) (self_mem_subBlocks _)
  exact h.mpr (by decide)

/-- C6: when no completion data is supplied — the completion collaborator
returns no latest-completed marker (`mark_blocks_completed`'s
`if last_completed_child_position:` fails) and an empty completion set —
the marking pass does nothing, and after decoration
(`set_last_accessed_default` then `mark_blocks_completed`) every block has
`complete = false` and `resume_block = false`, their default values. -/
theorem C6_no_completion_data :
    ∀ (comps : List Nat) (b : Block), comps = [] →
      ∀ x ∈ subBlocks (mark_blocks_completed none comps (set_last_accessed_default b)),
        x.complete = false ∧ x.resume_block = false := by
  intro comps b _ x hx
  exact clear_flags b x hx

/-- Witness for C6: the decorated two-child course with no completion data
has all flags false at its root. -/
theorem C6_witness :
    (mark_blocks_completed none [] (set_last_accessed_default exC3)).complete = false ∧
    (mark_blocks_completed none [] (set_last_accessed_default exC3)).resume_block = false :=
  C6_no_completion_data [] exC3 rfl
    (mark_blocks_completed none [] (set_last_accessed_default exC3)) (self_mem_subBlocks _)

theorem first_resume_eq_findSome (cs : List Block) :
    first_resume cs = cs.findSome? get_resume_block := by
  induction cs with
  | nil => rfl
  | cons c rest ih =>
    cases h : get_resume_block c <;> simp [first_resume, List.findSome?_cons, h, ih]

/-- C4: `get_resume_block` returns `none` when the block carries an
access-denial marker or is not marked `resume_block`; otherwise it returns
the first child subtree's non-`none` result, and the block itself when no
child yields one (`List.findSome?` captures the source's first-result
loop; over an empty child list it is `none`, matching the early
`if not block.get('children'): return block`).  On a tree with no
`resume_block` flag set anywhere it returns `none` (the root already fails
the flag test), and on a childless root marked `resume_block` it returns
that root. -/
theorem C4_get_resume_block :
    (∀ b : Block, b.authorization_denial_reason = true ∨ b.resume_block = false →
      get_resume_block b = none) ∧
    (∀ b : Block, b.authorization_denial_reason = false → b.resume_block = true →
      get_resume_block b = some ((b.children.findSome? get_resume_block).getD b)) ∧
    (∀ b : Block, (∀ x ∈ subBlocks b, x.resume_block = false) → get_resume_block b = none) ∧
    (∀ b : Block, b.children = [] → b.authorization_denial_reason = false →
      b.resume_block = true → get_resume_block b = some b) := by
  have h1 : ∀ b : Block, b.authorization_denial_reason = true ∨ b.resume_block = false →
      get_resume_block b = none := by
    intro b hb
    cases b with
    | mk k ty co re de cs =>
      rcases hb with hde | hre
      · simp only [denial_mk] at hde
        subst hde
        simp [get_resume_block]
      · simp only [resume_mk] at hre
        subst hre
        cases de <;> simp [get_resume_block]
  have h2 : ∀ b : Block, b.authorization_denial_reason = false → b.resume_block = true →
      get_resume_block b = some ((b.children.findSome? get_resume_block).getD b) := by
    intro b hde hre
    cases b with
    | mk k ty co re de cs =>
      simp only [denial_mk] at hde
      simp only [resume_mk] at hre
      subst hde; subst hre
      cases cs with
      | nil => simp [get_resume_block]
      | cons c rest =>
        simp only [get_resume_block, Bool.not_true, if_false, Bool.false_eq_true,
          children_mk]
        rw [← first_resume_eq_findSome]
        cases h : first_resume (c :: rest) <;> simp [h]
  refine ⟨h1, h2, ?_, ?_⟩
  · intro b hall
    exact h1 b (Or.inr (hall b (self_mem_subBlocks b)))
  · intro b hcs hde hre
    rw [h2 b hde hre, hcs]
    simp

/-- Witness for C4: the facet applied to a childless root marked
`resume_block`. -/
theorem C4_witness :
    get_resume_block (Block.mk 0 "course" false true false []) =
      some (Block.mk 0 "course" false true false []) :=
  C4_get_resume_block.2.2.2 (Block.mk 0 "course" false true false []) rfl rfl rfl

/-- A denied root, itself marked `resume_block`, with a resumable
descendant: used to instantiate C8. -/
def exC8 : Block :=
  Block.mk 0 "sequential" false true true [Block.mk 1 "html" false true false []]

/-- C8: the moment `get_resume_block` is invoked on a block carrying an
access-denial marker it returns `none`, before looking at `resume_block`
or any descendant — even when deeper descendants are marked
`resume_block = true`; the denial is swallowed (an ordinary `None`
return), never surfaced as an error. -/
theorem C8_denied_none :
    (∀ b : Block, b.authorization_denial_reason = true → get_resume_block b = none) ∧
    get_resume_block exC8 = none := by
  constructor
  · intro b hb
    cases b with
    | mk k ty co re de cs =>
      simp only [denial_mk] at hb
      subst hb
      simp [get_resume_block]
  · decide

/-- Witness for C8: the general fact applied to the denied root with a
resumable descendant. -/
theorem C8_witness : get_resume_block exC8 = none :=
  C8_denied_none.1 exC8 rfl

theorem mark_last_accessed_out_of_range (pos : Nat → Option Nat) (k ty co re de)
    (c0 : Block) (crest : List Block) (p : Nat) (hpos : pos k = some p)
    (hgt : (c0 :: crest).length < p) :
    mark_last_accessed pos (Block.mk k ty co re de (c0 :: crest)) =
      Block.mk k ty co true de
        ((c0 :: crest).set ((c0 :: crest).length - 1)
          (setResumeTrue ((c0 :: crest).getLast (by simp)))) := by
  simp only [mark_last_accessed, hpos]
  rw [dif_neg (by omega), dif_neg (by omega)]

theorem mark_last_accessed_in_range (pos : Nat → Option Nat) (k ty co re de)
    (c0 : Block) (crest : List Block) (p : Nat) (hpos : pos k = some p)
    (hge : 1 ≤ p) (hle : p ≤ (c0 :: crest).length) :
    mark_last_accessed pos (Block.mk k ty co re de (c0 :: crest)) =
      Block.mk k ty co true de
        ((c0 :: crest).set (p - 1)
          (mark_last_accessed pos (setResumeTrue ((c0 :: crest).get ⟨p - 1, by omega⟩)))) := by
  simp only [mark_last_accessed, hpos]
  rw [dif_neg (by omega), dif_pos hle]

/-- C5: when the stored position for a block exists and exceeds its child
count, `mark_last_accessed` marks the block and its *last* child
`resume_block = true` and recurses into no child (the child list of the
result is the original one with only the last child's own flag flipped);
when the position is within range (1-based, so at least 1), it marks the
block and the child at index `position - 1` and recurses into that child
only (every other child is returned untouched). -/
theorem C5_position_fallback :
    (∀ (pos : Nat → Option Nat) (k : Nat) (ty : String) (co re de : Bool)
      (c0 : Block) (crest : List Block) (p : Nat) (last : Block),
      pos k = some p → (c0 :: crest).length < p → (c0 :: crest).getLast? = some last →
      mark_last_accessed pos (Block.mk k ty co re de (c0 :: crest)) =
        Block.mk k ty co true de
          ((c0 :: crest).set ((c0 :: crest).length - 1) (setResumeTrue last))) ∧
    (∀ (pos : Nat → Option Nat) (k : Nat) (ty : String) (co re de : Bool)
      (c0 : Block) (crest : List Block) (p : Nat) (c : Block),
      pos k = some p → 1 ≤ p → p ≤ (c0 :: crest).length → (c0 :: crest)[p - 1]? = some c →
      mark_last_accessed pos (Block.mk k ty co re de (c0 :: crest)) =
        Block.mk k ty co true de
          ((c0 :: crest).set (p - 1) (mark_last_accessed pos (setResumeTrue c)))) := by
  constructor
  · intro pos k ty co re de c0 crest p last hpos hgt hlast
    rw [mark_last_accessed_out_of_range pos k ty co re de c0 crest p hpos hgt]
    have hgl : (c0 :: crest).getLast (by simp) = last := by
      have h := List.getLast?_eq_getLast (c0 :: crest) (by simp)
      rw [hlast] at h
      exact (Option.some_inj.mp h).symm
    rw [hgl]
  · intro pos k ty co re de c0 crest p c hpos hge hle hget
    rw [mark_last_accessed_in_range pos k ty co re de c0 crest p hpos hge hle]
    have hlt : p - 1 < (c0 :: crest).length := by omega
    have hc : (c0 :: crest).get ⟨p - 1, hlt⟩ = c := by
      have h := (List.getElem?_eq_some_getElem_iff (c0 :: crest) (p - 1) hlt).mpr trivial
      rw [hget] at h
      rw [List.get_eq_getElem]
      exact Option.some_inj.mp h.symm
    rw [hc]

/-- Witness for C5: a sequential with two children and stored position 5
(out of range): the last child is marked, no recursion happens. -/
theorem C5_witness :
    mark_last_accessed (fun k => if k = 0 then some 5 else none)
      (Block.mk 0 "sequential" false false false
        [Block.mk 1 "html" false false false [], Block.mk 2 "html" false false false []]) =
      Block.mk 0 "sequential" false true false
        [Block.mk 1 "html" false false false [], Block.mk 2 "html" false true false []] := by
  have h := C5_position_fallback.1 (fun k => if k = 0 then some 5 else none) 0 "sequential"
    false false false (Block.mk 1 "html" false false false [])
    [Block.mk 2 "html" false false false []] 5 (Block.mk 2 "html" false false false [])
    rfl (by decide) (by decide)
  rw [h]
  decide

theorem lookupRecord_some_mem {m : List (Nat × BlockRecord)} {k : Nat} {r : BlockRecord}
    (h : lookupRecord m k = some r) : k ∈ m.map Prod.fst := by
  induction m with
  | nil => simp [lookupRecord] at h
  | cons p rest ih =>
    obtain ⟨k', r'⟩ := p
    simp only [lookupRecord] at h
    by_cases hk : k' = k
    · simp [hk]
    · rw [if_neg hk] at h
      simp [ih h]

/-- The invariant of a successful `populateMany` run: the produced sibling
blocks carry exactly the requested keys in order, and every block of every
produced subtree was built from its map record — same type and denial
marker, `complete` and `resume_block` at their construction defaults, and
children keys equal to the record's child-id list in order. -/
theorem populateMany_spec (m : List (Nat × BlockRecord)) :
    ∀ (fuel : Nat) (ks : List Nat) (bs : List Block),
      populateMany m fuel ks = some bs →
      bs.map Block.key = ks ∧
      ∀ b ∈ bs, ∀ x ∈ subBlocks b, ∃ r, lookupRecord m x.key = some r ∧
        x.btype = r.btype ∧ x.complete = false ∧ x.resume_block = false ∧
        x.authorization_denial_reason = r.authorization_denial_reason ∧
        x.children.map Block.key = r.children := by
  intro fuel
  induction fuel with
  | zero => intro ks bs h; simp [populateMany] at h
  | succ fuel ih =>
    intro ks bs h
    cases ks with
    | nil =>
      simp only [populateMany, Option.some_inj] at h
      subst h
      exact ⟨rfl, by simp⟩
    | cons k ks' =>
      cases hlook : lookupRecord m k with
      | none => simp only [populateMany, hlook] at h; exact Option.noConfusion h
      | some r =>
        cases hcs : populateMany m fuel r.children with
        | none => simp only [populateMany, hlook, hcs] at h; exact Option.noConfusion h
        | some cs =>
          cases hrest : populateMany m fuel ks' with
          | none => simp only [populateMany, hlook, hcs, hrest] at h; exact Option.noConfusion h
          | some rest =>
            simp only [populateMany, hlook, hcs, hrest, Option.some_inj] at h
            subst h
            obtain ⟨hkeys1, hblocks1⟩ := ih r.children cs hcs
            obtain ⟨hkeys2, hblocks2⟩ := ih ks' rest hrest
            refine ⟨by simp [hkeys2], ?_⟩
            intro b hb
            rcases List.mem_cons.mp hb with rfl | hbrest
            · intro x hx
              rcases mem_subBlocks_iff.mp hx with rfl | ⟨c, hcmem, hxc⟩
              · exact ⟨r, by simpa using hlook, rfl, rfl, rfl, rfl, by simpa using hkeys1⟩
              · exact hblocks1 c (by simpa using hcmem) x hxc
            · exact hblocks2 b hbrest

theorem populate_children_eq_some (m : List (Nat × BlockRecord)) (fuel root : Nat)
    (b : Block) :
    populate_children m fuel root = some b ↔ populateMany m fuel [root] = some [b] := by
  unfold populate_children
  cases h : populateMany m fuel [root] with
  | none => simp
  | some l =>
    cases l with
    | nil => simp
    | cons x xs =>
      cases xs with
      | nil => simp
      | cons y ys => simp

/-- The flat map of the C7 counterexample: two records, the root `0` and an
entry `1` that no child list references. -/
def mEx7 : List (Nat × BlockRecord) :=
  [(0, ⟨"course", false, []⟩), (1, ⟨"html", false, []⟩)]

/-- C7 counterexample: a flat map with every referenced child id present,
the root present, and no cycles (the construction succeeds), whose second
entry is unreachable from the root: the produced tree has 1 node while the
map has 2 entries, refuting the claimed node-count equality. -/
theorem C7_counterexample :
    allRefsPresent mEx7 = true ∧ (lookupRecord mEx7 0).isSome = true ∧
    populate_children mEx7 2 0 = some (Block.mk 0 "course" false false false []) ∧
    countBlocks (Block.mk 0 "course" false false false []) = 1 ∧ mEx7.length = 2 := by
  decide

/-- C7 amended: `populate_children` always reproduces, at every node of the
produced tree, the children of that node's map record in their original
order; and the node count of the produced tree equals the number of map
entries provided the map is an exact tree export — the map keys are
distinct, every map key appears in the tree, and no key appears twice in
the tree (without these, unreachable entries make the tree smaller and
multiply-referenced ids make it larger than the map). -/
theorem C7_tree_construction :
    (∀ (m : List (Nat × BlockRecord)) (fuel root : Nat) (b : Block),
      populate_children m fuel root = some b →
      ∀ x ∈ subBlocks b, ∃ r, lookupRecord m x.key = some r ∧
        x.children.map Block.key = r.children) ∧
    (∀ (m : List (Nat × BlockRecord)) (fuel root : Nat) (b : Block),
      populate_children m fuel root = some b →
      (m.map Prod.fst).Nodup →
      (∀ kk ∈ m.map Prod.fst, kk ∈ treeKeys b) →
      (treeKeys b).Nodup →
      countBlocks b = m.length) := by
  constructor
  · intro m fuel root b h x hx
    have hmany := (populate_children_eq_some m fuel root b).mp h
    obtain ⟨-, hblocks⟩ := populateMany_spec m fuel [root] [b] hmany
    obtain ⟨r, hr, -, -, -, -, hch⟩ := hblocks b (by simp) x hx
    exact ⟨r, hr, hch⟩
  · intro m fuel root b h hnodup hcover htreenodup
    have hmany := (populate_children_eq_some m fuel root b).mp h
    obtain ⟨-, hblocks⟩ := populateMany_spec m fuel [root] [b] hmany
    have hsub : treeKeys b ⊆ m.map Prod.fst := by
      intro kk hkk
      simp only [treeKeys, List.mem_map] at hkk
      obtain ⟨x, hx, rfl⟩ := hkk
      obtain ⟨r, hr, -⟩ := hblocks b (by simp) x hx
      exact lookupRecord_some_mem hr
    have h1 : (treeKeys b).length ≤ (m.map Prod.fst).length :=
      (List.subperm_of_subset htreenodup hsub).length_le
    have h2 : (m.map Prod.fst).length ≤ (treeKeys b).length :=
      (List.subperm_of_subset hnodup hcover).length_le
    have : (treeKeys b).length = (m.map Prod.fst).length := Nat.le_antisymm h1 h2
    simpa [countBlocks, treeKeys] using this

/-- The flat map of the C7 witness: an exact tree export with three
entries. -/
def mEx7b : List (Nat × BlockRecord) :=
  [(0, ⟨"course", false, [1, 2]⟩), (1, ⟨"html", false, []⟩), (2, ⟨"discussion", false, []⟩)]

/-- Witness for the amended C7: the three-entry tree export builds a
three-node tree. -/
theorem C7_witness :
    countBlocks (Block.mk 0 "course" false false false
      [Block.mk 1 "html" false false false [], Block.mk 2 "discussion" false false false []]) =
      mEx7b.length := by
  have h := C7_tree_construction.2 mEx7b 10 0
    (Block.mk 0 "course" false false false
      [Block.mk 1 "html" false false false [], Block.mk 2 "discussion" false false false []])
    (by decide) (by decide) (by decide) (by decide)
  exact h

theorem populateMany_single_fail (m : List (Nat × BlockRecord)) (x : Nat)
    (hlook : lookupRecord m x = none) :
    ∀ fuel, populateMany m fuel [x] = none := by
  intro fuel
  cases fuel with
  | zero => rfl
  | succ f => simp [populateMany, hlook]

theorem populateMany_mem_fail (m : List (Nat × BlockRecord)) (c : Nat) :
    ∀ (ks : List Nat), c ∈ ks → (∀ f, populateMany m f [c] = none) →
      ∀ f, populateMany m f ks = none := by
  intro ks
  induction ks with
  | nil => intro h; exact absurd h (List.not_mem_nil c)
  | cons k ks' ih =>
    intro hmem hfail f
    cases f with
    | zero => rfl
    | succ f =>
      rcases List.mem_cons.mp hmem with rfl | hmem'
      · have hf := hfail (f + 1)
        cases hlook : lookupRecord m c with
        | none => simp [populateMany, hlook]
        | some r =>
          cases hcs : populateMany m f r.children with
          | none => simp [populateMany, hlook, hcs]
          | some cs =>
            have hf1 : f ≠ 0 := by
              intro h0
              subst h0
              simp [populateMany] at hcs
            have hnil : populateMany m f ([] : List Nat) = some [] := by
              cases f with
              | zero => exact absurd rfl hf1
              | succ f2 => rfl
            simp [populateMany, hlook, hcs, hnil] at hf
      · have htail := ih hmem' hfail f
        cases hlook : lookupRecord m k with
        | none => simp [populateMany, hlook]
        | some r =>
          cases hcs : populateMany m f r.children with
          | none => simp [populateMany, hlook, hcs]
          | some cs => simp [populateMany, hlook, hcs, htail]

theorem populateMany_parent_fail (m : List (Nat × BlockRecord)) (pk c : Nat)
    (r : BlockRecord) (hlook : lookupRecord m pk = some r) (hc : c ∈ r.children)
    (hfail : ∀ f, populateMany m f [c] = none) :
    ∀ f, populateMany m f [pk] = none := by
  intro f
  cases f with
  | zero => rfl
  | succ f =>
    have hch := populateMany_mem_fail m c r.children hc hfail f
    simp [populateMany, hlook, hch]

theorem reaches_fail (m : List (Nat × BlockRecord)) (root k : Nat)
    (h : Reaches m root k) :
    (∀ f, populateMany m f [k] = none) → ∀ f, populateMany m f [root] = none := by
  induction h with
  | refl => exact fun hf => hf
  | step hreach hlook hcin ih =>
    intro hfail
    exact ih (populateMany_parent_fail m _ _ _ hlook hcin hfail)

/-- C9: when the recursion of `populate_children` reaches a block whose
record references a child id absent from the flat map, the lookup failure
(Python's `KeyError` from `all_blocks[child_id]`) propagates: the whole
construction yields nothing, never a partially constructed tree. -/
theorem C9_missing_child :
    ∀ (m : List (Nat × BlockRecord)) (root k : Nat), Reaches m root k →
      lookupRecord m k = none → ∀ fuel, populate_children m fuel root = none := by
  intro m root k hreach hlook fuel
  have h := reaches_fail m root k hreach (populateMany_single_fail m k hlook) fuel
  unfold populate_children
  rw [h]

/-- The flat map of the C9 witness: the root references child id 1, which
has no record. -/
def mEx9 : List (Nat × BlockRecord) := [(0, ⟨"course", false, [1]⟩)]

/-- Witness for C9: building from root 0 over `mEx9` fails. -/
theorem C9_witness : populate_children mEx9 5 0 = none :=
  C9_missing_child mEx9 0 1 (Reaches.step (Reaches.refl 0) rfl (by decide)) rfl 5

theorem populate_children_root_missing (m : List (Nat × BlockRecord)) (fuel root : Nat)
    (hlook : lookupRecord m root = none) : populate_children m fuel root = none := by
  unfold populate_children
  rw [populateMany_single_fail m root hlook fuel]

/-- C10: when the root id is absent from the returned block map,
`get_course_outline_block_tree` returns `none` without raising and without
any construction or decoration; and when no user is supplied only tree
construction runs — the result is exactly the `populate_children` output,
in which every block still has `complete = false` and
`resume_block = false` (no decoration field was touched). -/
theorem C10_root_absent_no_user :
    (∀ (m : List (Nat × BlockRecord)) (root : Nat) (user : Option UserCtx) (fuel : Nat),
      lookupRecord m root = none → get_course_outline_block_tree m root user fuel = none) ∧
    (∀ (m : List (Nat × BlockRecord)) (root : Nat) (fuel : Nat),
      get_course_outline_block_tree m root none fuel = populate_children m fuel root) ∧
    (∀ (m : List (Nat × BlockRecord)) (root : Nat) (fuel : Nat) (b : Block),
      get_course_outline_block_tree m root none fuel = some b →
      ∀ x ∈ subBlocks b, x.complete = false ∧ x.resume_block = false) := by
  have h2 : ∀ (m : List (Nat × BlockRecord)) (root : Nat) (fuel : Nat),
      get_course_outline_block_tree m root none fuel = populate_children m fuel root := by
    intro m root fuel
    unfold get_course_outline_block_tree
    cases hlook : lookupRecord m root with
    | none => rw [populate_children_root_missing m fuel root hlook]
    | some r =>
      cases hpop : populate_children m fuel root with
      | none => rfl
      | some t => rfl
  refine ⟨?_, h2, ?_⟩
  · intro m root user fuel hlook
    unfold get_course_outline_block_tree
    rw [hlook]
  · intro m root fuel b h
    rw [h2] at h
    have hmany := (populate_children_eq_some m fuel root b).mp h
    obtain ⟨-, hblocks⟩ := populateMany_spec m fuel [root] [b] hmany
    intro x hx
    obtain ⟨r, -, -, hco, hre, -, -⟩ := hblocks b (by simp) x hx
    exact ⟨hco, hre⟩

/-- Witness for C10: an empty block map has no root record, so the call
returns `none`. -/
theorem C10_witness : get_course_outline_block_tree [] 0 none 3 = none :=
  C10_root_absent_no_user.1 [] 0 none 3 rfl

end CourseOutline
